import Mathlib

/-!
Verification of the `site_word_frequency` crawler.

The development shallowly embeds the Go sources (`finder.go`, `main.go`):
pure computations become Lean functions, the mutex-protected aggregator
state and the controller loop become explicit state passing, Go maps
become lookup functions or association lists, channels become explicit
buffer lists, and the nondeterminism of `select` and of concurrent batch
arrival is captured by oracle parameters that are universally quantified
in the theorems.
-/

/-- Go struct `SearchRecord` (declared in the crawler's search module, fields as used
by `finder.go`): the URL of a task together with an optional error.  The Go
`error` interface value is abstracted to an optional message. -/
structure SearchRecord where
  url : String
  err : Option String
deriving DecidableEq, Repr

/-- Go struct `RunStats` (finder.go:28-31): the two backpressure counters. -/
structure RunStats where
  chanFree : Nat
  chanBlocked : Nat
deriving DecidableEq, Repr

/-- The aggregator-visible state of a `WordFinder` (finder.go:16-26).
`words` is the Go `map[string]int` read as its lookup function (absent key
= 0).  `errRecs` models the Go slice including its nil state: `none` is the
nil slice, `some l` a non-nil slice with contents `l`.  `filterChan` is the
current buffered content of the `filter` channel and `deferredSends` the
batches handed to spawned relief goroutines that are still waiting to
perform their blocking send. -/
structure WordFinder where
  words : String → Nat
  errRecs : Option (List SearchRecord)
  filterChan : List (List String)
  deferredSends : List (List String)
  stats : RunStats

/-- The merge loop `for k, v := range wds { wf.words[k] += v }`
(finder.go:145-147).  The per-page histogram `wds` is its entry list in
the (arbitrary) Go map iteration order. -/
def mergeWords (words : String → Nat) (wds : List (String × Nat)) : String → Nat :=
  wds.foldl (fun acc kv => fun x => if x = kv.1 then acc x + kv.2 else acc x) words

/-- Total contribution of the entry list `wds` to the count of word `x`. -/
def sumFor (wds : List (String × Nat)) (x : String) : Nat :=
  (wds.map (fun kv => if x = kv.1 then kv.2 else 0)).sum

/-- Function `addLinkData` (finder.go:137-163).  `cap` is the capacity of the
`filter` channel (`multiplier * concurrency`, finder.go:59).  Under the
mutex: append the record to `errRecs` when it carries an error, merge the
page histogram, then try a non-blocking send of `links` into the filter
channel; if the buffer is full, count the block and hand the batch to a
spawned goroutine (`deferredSends`) which performs the blocking send after
the mutex is released. -/
def addLinkData (cap : Nat) (wf : WordFinder) (sr : SearchRecord)
    (wds : List (String × Nat)) (links : List String) : WordFinder :=
  let errRecs' := if sr.err.isSome then some (wf.errRecs.getD [] ++ [sr]) else wf.errRecs
  let words' := mergeWords wf.words wds
  if wf.filterChan.length < cap then
    { words := words', errRecs := errRecs',
      filterChan := wf.filterChan ++ [links], deferredSends := wf.deferredSends,
      stats := { chanFree := wf.stats.chanFree + 1, chanBlocked := wf.stats.chanBlocked } }
  else
    { words := words', errRecs := errRecs',
      filterChan := wf.filterChan, deferredSends := wf.deferredSends ++ [links],
      stats := { chanFree := wf.stats.chanFree, chanBlocked := wf.stats.chanBlocked + 1 } }

/-- Function `getErrors` (finder.go:183-185): returns the error-record slice as is,
nil (`none`) when no error was ever appended. -/
def getErrors (wf : WordFinder) : Option (List SearchRecord) :=
  wf.errRecs

/-- The aggregator state made by `newWordFinder` (finder.go:45-63): empty
word map, nil error slice, empty channel, zeroed stats. -/
def newWordFinder : WordFinder :=
  { words := fun _ => 0, errRecs := none, filterChan := [], deferredSends := [],
    stats := { chanFree := 0, chanBlocked := 0 } }

/-- One worker submission to the aggregator: the arguments of one
`addLinkData` call. -/
structure Submission where
  sr : SearchRecord
  wds : List (String × Nat)
  links : List String
deriving DecidableEq, Repr

/-- The sequence of `addLinkData` calls as serialized by the mutex. -/
def runAggregator (cap : Nat) (wf0 : WordFinder) (subs : List Submission) : WordFinder :=
  subs.foldl (fun wf sub => addLinkData cap wf sub.sr sub.wds sub.links) wf0

/-- Go struct `kvPair` (finder.go:34-37). -/
structure kvPair where
  key : String
  value : Nat
deriving DecidableEq, Repr

/-- The sort order realized by `kvSorter.Less` (finder.go:203-205):
`Less(i,j) = kvs[j].value < kvs[i].value`, so an arrangement is sorted
exactly when values are non-increasing. -/
def kvLE (a b : kvPair) : Bool :=
  decide (b.value ≤ a.value)

/-- Function `getResults` (finder.go:166-179).  `entries` is the entry list of
`wf.words` in the (arbitrary) Go map iteration order; `totWords` is the
`tot_words` option.  Sort by count descending, then take
`min(totWords, len)` entries. -/
def getResults (entries : List kvPair) (totWords : Nat) : List kvPair :=
  (entries.mergeSort kvLE).take
    (if (entries.mergeSort kvLE).length < totWords
     then (entries.mergeSort kvLE).length else totWords)

/-- The fatal-abort decision of `main` before `finder.run` is called
(main.go:64-104), in the order of the code: missing start URL, invalid
length bounds, unparseable URL, both CPU and memory profiling requested,
or — when a CPU profile alone is requested — failure to create its output
file.  `urlParseOk` abstracts the external `url.Parse` success and
`cpuCreateOk` the external `os.Create(*cpuprofile)` success
(main.go:98-101), both environmental outcomes of the run. -/
def mainAborts (nargs minLen maxLen : Nat) (urlParseOk : Bool)
    (cpuprofile memprofile : String) (cpuCreateOk : Bool) : Bool :=
  if nargs < 1 then true
  else if (minLen = 0 ∧ maxLen = 0) ∨ (0 < maxLen ∧ maxLen < minLen) then true
  else if urlParseOk = false then true
  else if memprofile ≠ "" ∧ cpuprofile ≠ "" then true
  else if cpuprofile ≠ "" ∧ cpuCreateOk = false then true
  else false

theorem addLinkData_words (cap : Nat) (wf : WordFinder) (sr : SearchRecord)
    (wds : List (String × Nat)) (links : List String) :
    (addLinkData cap wf sr wds links).words = mergeWords wf.words wds := by
  unfold addLinkData
  split <;> split <;> rfl

theorem addLinkData_errRecs_eq (cap : Nat) (wf : WordFinder) (sr : SearchRecord)
    (wds : List (String × Nat)) (links : List String) :
    (addLinkData cap wf sr wds links).errRecs =
      if sr.err.isSome then some (wf.errRecs.getD [] ++ [sr]) else wf.errRecs := by
  unfold addLinkData
  split <;> split <;> rfl

theorem mergeWords_apply (w : String → Nat) (wds : List (String × Nat)) (x : String) :
    mergeWords w wds x = w x + sumFor wds x := by
  induction wds generalizing w with
  | nil => simp [mergeWords, sumFor]
  | cons kv t ih =>
    have h1 : mergeWords w (kv :: t) =
        mergeWords (fun x => if x = kv.1 then w x + kv.2 else w x) t := rfl
    rw [h1, ih]
    have h2 : sumFor (kv :: t) x = (if x = kv.1 then kv.2 else 0) + sumFor t x := by
      simp [sumFor]
    rw [h2]
    by_cases h : x = kv.1 <;> simp [h] <;> try omega

theorem runAggregator_words (cap : Nat) (wf0 : WordFinder) (subs : List Submission)
    (x : String) :
    (runAggregator cap wf0 subs).words x =
      wf0.words x + (subs.map (fun sub => sumFor sub.wds x)).sum := by
  induction subs generalizing wf0 with
  | nil => simp [runAggregator]
  | cons sub t ih =>
    have h1 : runAggregator cap wf0 (sub :: t) =
        runAggregator cap (addLinkData cap wf0 sub.sr sub.wds sub.links) t := rfl
    rw [h1, ih, addLinkData_words, mergeWords_apply]
    simp [Nat.add_assoc]

theorem addLinkData_stats (cap : Nat) (wf : WordFinder) (sr : SearchRecord)
    (wds : List (String × Nat)) (links : List String) :
    (addLinkData cap wf sr wds links).stats =
      if wf.filterChan.length < cap
      then { chanFree := wf.stats.chanFree + 1, chanBlocked := wf.stats.chanBlocked }
      else { chanFree := wf.stats.chanFree, chanBlocked := wf.stats.chanBlocked + 1 } := by
  unfold addLinkData
  by_cases h : wf.filterChan.length < cap <;> simp [h]

theorem addLinkData_chans (cap : Nat) (wf : WordFinder) (sr : SearchRecord)
    (wds : List (String × Nat)) (links : List String) :
    ((addLinkData cap wf sr wds links).filterChan,
      (addLinkData cap wf sr wds links).deferredSends) =
      if wf.filterChan.length < cap then (wf.filterChan ++ [links], wf.deferredSends)
      else (wf.filterChan, wf.deferredSends ++ [links]) := by
  unfold addLinkData
  by_cases h : wf.filterChan.length < cap <;> simp [h]

/-- C4: every `addLinkData` call increments exactly one of the two
backpressure counters — `chanFree` exactly when the non-blocking send
succeeds (buffer below capacity), `chanBlocked` exactly when the channel
is full, in which case the batch is handed to a spawned relief goroutine —
and in both cases the link batch is delivered towards the filter channel
exactly once (its multiplicity among buffered-plus-deferred batches grows
by exactly one: no loss, no duplication). -/
theorem addLinkData_backpressure (cap : Nat) (wf : WordFinder) (sr : SearchRecord)
    (wds : List (String × Nat)) (links : List String) :
    (addLinkData cap wf sr wds links).stats.chanFree +
        (addLinkData cap wf sr wds links).stats.chanBlocked =
      wf.stats.chanFree + wf.stats.chanBlocked + 1 ∧
    (addLinkData cap wf sr wds links).stats.chanFree =
      (if wf.filterChan.length < cap then wf.stats.chanFree + 1 else wf.stats.chanFree) ∧
    (addLinkData cap wf sr wds links).stats.chanBlocked =
      (if wf.filterChan.length < cap then wf.stats.chanBlocked else wf.stats.chanBlocked + 1) ∧
    ((addLinkData cap wf sr wds links).filterChan ++
        (addLinkData cap wf sr wds links).deferredSends).count links =
      ((wf.filterChan ++ wf.deferredSends).count links) + 1 ∧
    ((addLinkData cap wf sr wds links).filterChan,
        (addLinkData cap wf sr wds links).deferredSends) =
      (if wf.filterChan.length < cap then (wf.filterChan ++ [links], wf.deferredSends)
       else (wf.filterChan, wf.deferredSends ++ [links])) := by
  have hs := addLinkData_stats cap wf sr wds links
  have hc := addLinkData_chans cap wf sr wds links
  have hc1 := congrArg Prod.fst hc
  have hc2 := congrArg Prod.snd hc
  by_cases h : wf.filterChan.length < cap <;>
    simp only [h, if_true, if_false, ite_true, ite_false] at hs hc1 hc2 ⊢ <;>
    refine ⟨?_, ?_, ?_, ?_, ?_⟩ <;>
    simp [hs, hc1, hc2, List.count_append, List.count_singleton] <;> omega

/-- C7: a (URL, error) record is appended to `errRecs` exactly when the
submitted record's error is non-nil; the log is append-only (the new log
is always the old log extended by some suffix), so error-free submissions
leave it completely unchanged. -/
theorem errRecs_append_iff (cap : Nat) (wf : WordFinder) (sr : SearchRecord)
    (wds : List (String × Nat)) (links : List String) :
    (addLinkData cap wf sr wds links).errRecs =
      (if sr.err = none then wf.errRecs else some (wf.errRecs.getD [] ++ [sr])) ∧
    ∃ t, (addLinkData cap wf sr wds links).errRecs.getD [] = wf.errRecs.getD [] ++ t := by
  rw [addLinkData_errRecs_eq]
  cases h : sr.err with
  | none => exact ⟨by simp, ⟨[], by simp⟩⟩
  | some e => exact ⟨by simp, ⟨[sr], by simp⟩⟩

/-- C9: the global histogram grows monotonically under `addLinkData`:
for every word, its count after the merge is at least its count before
(in the lookup-function model this subsumes both "no key is removed" and
"no count decreases"). -/
theorem words_monotone (cap : Nat) (wf : WordFinder) (sr : SearchRecord)
    (wds : List (String × Nat)) (links : List String) (x : String) :
    wf.words x ≤ (addLinkData cap wf sr wds links).words x := by
  rw [addLinkData_words, mergeWords_apply]
  exact Nat.le_add_right _ _

/-- C5: merging page histograms is component-wise addition, so any
permutation of the sequence of `addLinkData` calls yields the same final
global histogram. -/
theorem globalHistogram_order_independent (cap : Nat) (wf0 : WordFinder)
    (subs subs' : List Submission) (h : subs.Perm subs') (x : String) :
    (runAggregator cap wf0 subs).words x = (runAggregator cap wf0 subs').words x := by
  rw [runAggregator_words, runAggregator_words, List.Perm.sum_eq (h.map _)]

def subA : Submission :=
  { sr := { url := "u1", err := none }, wds := [("hello", 3)], links := ["a"] }

def subB : Submission :=
  { sr := { url := "u2", err := some "E" }, wds := [("hello", 2), ("world", 1)], links := [] }

theorem globalHistogram_order_independent_witness :
    (runAggregator 3 newWordFinder [subA, subB]).words "hello" =
      (runAggregator 3 newWordFinder [subB, subA]).words "hello" :=
  globalHistogram_order_independent 3 newWordFinder [subA, subB] [subB, subA]
    (List.Perm.swap subB subA []) "hello"

theorem runAggregator_errRecs (cap : Nat) (wf : WordFinder) (subs : List Submission) :
    (runAggregator cap wf subs).errRecs =
      if (subs.filter fun sub => sub.sr.err.isSome) = [] then wf.errRecs
      else some (wf.errRecs.getD [] ++
        ((subs.filter fun sub => sub.sr.err.isSome).map fun sub => sub.sr)) := by
  induction subs generalizing wf with
  | nil => simp [runAggregator]
  | cons sub t ih =>
    have h1 : runAggregator cap wf (sub :: t) =
        runAggregator cap (addLinkData cap wf sub.sr sub.wds sub.links) t := rfl
    rw [h1, ih]
    by_cases herr : sub.sr.err.isSome
    · rw [addLinkData_errRecs_eq]
      simp only [List.filter_cons, herr, if_true]
      by_cases ht : (t.filter fun sub => sub.sr.err.isSome) = []
      · simp [ht]
      · simp [ht]
    · rw [addLinkData_errRecs_eq]
      simp [List.filter_cons, herr]

/-- C10: `getErrors` returns nil (`none`) exactly when no submitted record
carried an error; otherwise it returns precisely the error-carrying
records, in submission-processing order. -/
theorem getErrors_nil_iff (cap : Nat) (subs : List Submission) :
    (getErrors (runAggregator cap newWordFinder subs) = none ↔
      ∀ sub ∈ subs, sub.sr.err = none) ∧
    getErrors (runAggregator cap newWordFinder subs) =
      (if (subs.filter fun sub => sub.sr.err.isSome) = [] then none
       else some ((subs.filter fun sub => sub.sr.err.isSome).map fun sub => sub.sr)) := by
  have h := runAggregator_errRecs cap newWordFinder subs
  have hnil : newWordFinder.errRecs = none := rfl
  rw [getErrors, h, hnil]
  refine ⟨?_, by simp⟩
  by_cases hf : (subs.filter fun sub => sub.sr.err.isSome) = []
  · simp only [hf, if_true]
    rw [List.filter_eq_nil_iff] at hf
    constructor
    · intro _ sub hs
      have := hf sub hs
      exact Option.not_isSome_iff_eq_none.mp this
    · intro _
      trivial
  · simp only [hf, if_false]
    constructor
    · intro hc
      exact absurd hc (by simp)
    · intro hall
      exfalso
      apply hf
      rw [List.filter_eq_nil_iff]
      intro sub hs
      simp [hall sub hs]

theorem kvLE_trans (a b c : kvPair) :
    kvLE a b = true → kvLE b c = true → kvLE a c = true := by
  simp only [kvLE, decide_eq_true_eq]
  omega

theorem kvLE_total (a b : kvPair) : (kvLE a b || kvLE b a) = true := by
  simp only [kvLE, Bool.or_eq_true, decide_eq_true_eq]
  omega

/-- C6: for a histogram entry list and a requested count, `getResults`
returns exactly `min(totWords, number of entries)` pairs, each taken from
the histogram, sorted by count in non-increasing order (ties in any
order); when the histogram has fewer than `totWords` entries, all of them
are returned. -/
theorem getResults_spec (entries : List kvPair) (totWords : Nat) :
    (getResults entries totWords).length = min totWords entries.length ∧
    (∀ p ∈ getResults entries totWords, p ∈ entries) ∧
    List.Sorted (fun a b : kvPair => b.value ≤ a.value) (getResults entries totWords) ∧
    (entries.length ≤ totWords → ∀ p ∈ entries, p ∈ getResults entries totWords) := by
  have hperm : (entries.mergeSort kvLE).Perm entries := List.mergeSort_perm entries kvLE
  have hlen : (entries.mergeSort kvLE).length = entries.length := hperm.length_eq
  have hsorted : List.Pairwise (fun a b => kvLE a b = true) (entries.mergeSort kvLE) :=
    List.sorted_mergeSort kvLE_trans kvLE_total entries
  unfold getResults
  refine ⟨?_, ?_, ?_, ?_⟩
  · rw [List.length_take, hlen]
    split <;> omega
  · intro p hp
    exact hperm.subset (List.take_subset _ _ hp)
  · have hp2 : List.Pairwise (fun a b => kvLE a b = true)
        ((entries.mergeSort kvLE).take
          (if (entries.mergeSort kvLE).length < totWords
           then (entries.mergeSort kvLE).length else totWords)) :=
      List.Pairwise.sublist (List.take_sublist _ _) hsorted
    exact hp2.imp (fun hab => by simpa [kvLE] using hab)
  · intro hle p hp
    have hcnt : (if (entries.mergeSort kvLE).length < totWords
        then (entries.mergeSort kvLE).length else totWords) =
        (entries.mergeSort kvLE).length := by
      rw [hlen]
      split <;> omega
    rw [hcnt, List.take_length]
    exact hperm.symm.subset hp

def entriesEx : List kvPair :=
  [{ key := "apple", value := 5 }, { key := "berry", value := 9 }]

theorem getResults_spec_witness :
    ({ key := "apple", value := 5 } : kvPair) ∈ getResults entriesEx 5 :=
  (getResults_spec entriesEx 5).2.2.2 (by decide) { key := "apple", value := 5 } (by decide)

/-- C8 counterexample: a configuration that is valid by the claim's list
(one positional argument, `min_len = 5`, `max_len = 8`, a parseable URL)
still aborts fatally before any crawl work when both `-cpuprofile` and
`-memprofile` are requested (main.go:93-95), so the claim's "exactly
when" is false as stated. -/
theorem mainAborts_beyond_claimed_configs :
    mainAborts 1 5 8 true "cpu.out" "mem.out" true = true ∧
    ¬(1 < 1 ∨ ((5 : Nat) = 0 ∧ (8 : Nat) = 0) ∨ ((0 : Nat) < 8 ∧ (8 : Nat) < 5) ∨
      true = false) := by
  decide

/-- C8 amended: the pre-crawl fatal abort happens exactly when the start
URL argument is missing, the length bounds are invalid (both zero, or
`min_len > max_len` with `max_len > 0`), the start URL does not parse, or
— the cases the claim omits — both CPU and memory profiling outputs are
requested at once, or a CPU profile is requested and its output file
cannot be created (main.go:98-101). -/
theorem mainAborts_iff (nargs minLen maxLen : Nat) (urlParseOk : Bool)
    (cpu mem : String) (cpuCreateOk : Bool) :
    mainAborts nargs minLen maxLen urlParseOk cpu mem cpuCreateOk = true ↔
      (nargs < 1 ∨ (minLen = 0 ∧ maxLen = 0) ∨ (0 < maxLen ∧ maxLen < minLen) ∨
        urlParseOk = false ∨ (mem ≠ "" ∧ cpu ≠ "") ∨
        (cpu ≠ "" ∧ cpuCreateOk = false)) := by
  unfold mainAborts
  split_ifs <;> simp_all <;> tauto

/-- Result of processing one link batch in the controller's inner loop
(finder.go:104-119). -/
structure BatchResult where
  visited : List String
  interrupt : Bool
  oracle : List Bool
  sent : List String
deriving DecidableEq, Repr

/-- The inner `for _, link := range l` loop of `run` (finder.go:104-119).
`visited` is the key set of the Go `visited` map, `intr` the current
`wf.interrupt` flag.  For each link not yet visited the code marks it
visited, increments `cnt`, and races `tasks <- SearchRecord{url: link}`
against `<-ctx.Done()` in a `select`; Go chooses randomly among ready
cases, which the `oracle` models: `true` means this `select` took the
`ctx.Done()` branch (only possible once cancellation has fired), in which
case `cnt` is decremented back and `interrupt` is set; `false` (or an
exhausted oracle) means the send succeeded and the link was enqueued.
`sent` returns the enqueued links in order; the net `cnt` change of the
whole batch body is `sent.length`. -/
def procLinks : List Bool → List String → Bool → List String → BatchResult
  | oracle, visited, intr, [] => { visited := visited, interrupt := intr, oracle := oracle, sent := [] }
  | oracle, visited, intr, link :: ls =>
    if link ∈ visited then procLinks oracle visited intr ls
    else
      match oracle with
      | [] =>
        let r := procLinks [] (link :: visited) intr ls
        { r with sent := link :: r.sent }
      | b :: rest =>
        if b then procLinks rest (link :: visited) true ls
        else
          let r := procLinks rest (link :: visited) intr ls
          { r with sent := link :: r.sent }

/-- The controller-visible state of `run` (finder.go:68-133).  `cnt` is
the loop counter, `visited` the key set of the `visited` map, `interrupt`
the `wf.interrupt` flag, `sent` the log of URLs enqueued into `tasks` by
the loop (the priming send of the seed, finder.go:88, is not in it), and
`consumed` the number of batches received from the filter channel.
`pending` is the closed-system view of all in-flight work: for every task
in the `tasks` queue or being processed, and for every batch buffered in
or being sent to the `filter` channel, it holds the link batch that the
controller will eventually receive for it. -/
structure CtrlState where
  cnt : Int
  visited : List String
  interrupt : Bool
  pending : List (List String)
  sent : List String
  consumed : Nat
deriving DecidableEq, Repr, Inhabited

/-- The state of `run` just after the priming send `tasks <-
SearchRecord{url: wf.startURL.String()}` (finder.go:88): counter 1, empty
visited map, one in-flight unit whose batch will be the seed page's links
`g seedURL`.  Note the seed itself is not marked visited. -/
def initState (g : String → List String) (seedURL : String) : CtrlState :=
  { cnt := 1, visited := [], interrupt := false, pending := [g seedURL],
    sent := [], consumed := 0 }

/-- One iteration of `for cnt := 1; cnt > 0; cnt--` (finder.go:93-120),
including the trailing `cnt--`.  `g` is the link graph (the batch a page's
task eventually produces); `pick` chooses which in-flight batch arrives
next on the filter channel (workers are concurrent, so arrival order is
arbitrary); `oracle` feeds the `select` races.  Receiving blocks forever
(`none`, a deadlock) if no batch is in flight.  If `wf.interrupt` is set
the batch is dropped (`continue`, finder.go:100-102); otherwise the inner
link loop runs and each link sent becomes a new in-flight unit carrying
its own future batch `g link`. -/
def stepIter (g : String → List String) (pick : Nat) (oracle : List Bool)
    (s : CtrlState) : Option (CtrlState × List Bool) :=
  if s.pending.length = 0 then none
  else
    let i := pick % s.pending.length
    let l := s.pending.getD i []
    let rest := s.pending.eraseIdx i
    if s.interrupt then
      some ({ s with cnt := s.cnt - 1, pending := rest, consumed := s.consumed + 1 }, oracle)
    else
      let r := procLinks oracle s.visited s.interrupt l
      some ({ cnt := s.cnt + r.sent.length - 1, visited := r.visited,
              interrupt := r.interrupt, pending := rest ++ r.sent.map g,
              sent := s.sent ++ r.sent, consumed := s.consumed + 1 }, r.oracle)

/-- The controller loop of `run` (finder.go:93-120), returning the list of
states at each loop-condition check (so the last state is the one in which
`cnt > 0` first fails and the loop exits, finder.go:126-132).  `none`
models a run that deadlocks or does not finish within `fuel` iterations. -/
def runTrace (g : String → List String) (picks : Nat → Nat) :
    Nat → List Bool → CtrlState → Option (List CtrlState)
  | 0, _, s => if s.cnt ≤ 0 then some [s] else none
  | fuel + 1, oracle, s =>
    if s.cnt ≤ 0 then some [s]
    else
      match stepIter g (picks s.consumed) oracle s with
      | none => none
      | some (s', oracle') => (runTrace g picks fuel oracle' s').map (fun tr => s :: tr)

/-- What one loop iteration does to the counters: exactly one batch is
consumed, the counter is decremented once for it, and it is incremented
once for each newly enqueued link. -/
def IterRel (a b : CtrlState) : Prop :=
  b.consumed = a.consumed + 1 ∧
  ∃ new : List String, b.sent = a.sent ++ new ∧
    b.cnt = a.cnt + new.length - 1

/-- The controller invariant: the counter equals the number of in-flight
units (hence never negative); counter plus consumed batches equals one
(the seed) plus the loop-enqueued tasks, so `cnt = 0` exactly when every
scheduled task's batch has been consumed; each URL is in the visited map
at most once; enqueued URLs are distinct and were marked visited before
being enqueued; everything stays inside the finite URL universe. -/
def CtrlInv (univ : List String) (s : CtrlState) : Prop :=
  s.cnt = (s.pending.length : Int) ∧
  s.cnt + (s.consumed : Int) = 1 + (s.sent.length : Int) ∧
  s.visited.Nodup ∧
  s.sent.Nodup ∧
  (∀ x ∈ s.sent, x ∈ s.visited) ∧
  (∀ x ∈ s.visited, x ∈ univ) ∧
  (∀ b ∈ s.pending, ∀ x ∈ b, x ∈ univ)

/-- The link graph never leaves the finite URL universe. -/
def Closed (univ : List String) (g : String → List String) : Prop :=
  ∀ u ∈ univ, ∀ x ∈ g u, x ∈ univ

/-- Termination measure: unvisited universe URLs (counted twice) plus
in-flight units. -/
def ctrlMeasure (univ : List String) (s : CtrlState) : Nat :=
  2 * (univ.toFinset.filter (fun u => u ∉ s.visited)).card + s.pending.length

/-- Joint structural facts about the inner link loop: the visited map
afterwards holds exactly the old entries plus the batch's links; it stays
duplicate-free; the enqueued links are distinct, come from the batch, and
were unvisited on entry (they are marked visited before the enqueue
attempt); and the interrupt flag is never reset. -/
theorem procLinks_spec (l : List String) (oracle : List Bool) (visited : List String)
    (intr : Bool) :
    (∀ x, x ∈ (procLinks oracle visited intr l).visited ↔ x ∈ visited ∨ x ∈ l) ∧
    (visited.Nodup → (procLinks oracle visited intr l).visited.Nodup) ∧
    (procLinks oracle visited intr l).sent.Nodup ∧
    (∀ x ∈ (procLinks oracle visited intr l).sent, x ∈ l ∧ x ∉ visited) ∧
    (intr = true → (procLinks oracle visited intr l).interrupt = true) := by
  induction l generalizing oracle visited intr with
  | nil =>
    simp [procLinks]
  | cons link ls ih =>
    by_cases hmem : link ∈ visited
    · have hred : procLinks oracle visited intr (link :: ls) =
          procLinks oracle visited intr ls := by
        simp [procLinks, hmem]
      rw [hred]
      obtain ⟨h1, h2, h3, h4, h5⟩ := ih oracle visited intr
      refine ⟨?_, h2, h3, ?_, h5⟩
      · intro x
        rw [h1 x]
        simp only [List.mem_cons]
        constructor
        · rintro (h | h)
          · exact Or.inl h
          · exact Or.inr (Or.inr h)
        · rintro (h | h | h)
          · exact Or.inl h
          · exact Or.inl (h ▸ hmem)
          · exact Or.inr h
      · intro x hx
        obtain ⟨ha, hb⟩ := h4 x hx
        exact ⟨List.mem_cons.mpr (Or.inr ha), hb⟩
    · have hsub : ∀ (rest : List Bool) (i : Bool),
          (∀ x, x ∈ (procLinks rest (link :: visited) i ls).visited ↔
              x ∈ visited ∨ x ∈ link :: ls) ∧
          (visited.Nodup → (procLinks rest (link :: visited) i ls).visited.Nodup) ∧
          (link :: (procLinks rest (link :: visited) i ls).sent).Nodup ∧
          (∀ x ∈ link :: (procLinks rest (link :: visited) i ls).sent,
              x ∈ link :: ls ∧ x ∉ visited) := by
        intro rest i
        obtain ⟨h1, h2, h3, h4, _⟩ := ih rest (link :: visited) i
        refine ⟨?_, ?_, ?_, ?_⟩
        · intro x
          rw [h1 x]
          simp only [List.mem_cons]
          tauto
        · intro hnd
          exact h2 (List.nodup_cons.mpr ⟨hmem, hnd⟩)
        · refine List.nodup_cons.mpr ⟨?_, h3⟩
          intro hlink
          exact (h4 link hlink).2 (List.mem_cons.mpr (Or.inl rfl))
        · intro x hx
          rcases List.mem_cons.mp hx with hx | hx
          · subst hx
            exact ⟨List.mem_cons.mpr (Or.inl rfl), hmem⟩
          · obtain ⟨ha, hb⟩ := h4 x hx
            refine ⟨List.mem_cons.mpr (Or.inr ha), ?_⟩
            intro hv
            exact hb (List.mem_cons.mpr (Or.inr hv))
      cases oracle with
      | nil =>
        have hred : procLinks [] visited intr (link :: ls) =
            { procLinks [] (link :: visited) intr ls with
              sent := link :: (procLinks [] (link :: visited) intr ls).sent } := by
          simp [procLinks, hmem]
        rw [hred]
        obtain ⟨g1, g2, g3, g4⟩ := hsub [] intr
        obtain ⟨_, _, _, _, h5⟩ := ih [] (link :: visited) intr
        exact ⟨g1, g2, g3, g4, h5⟩
      | cons b rest =>
        by_cases hb : b = true
        · subst hb
          have hred : procLinks (true :: rest) visited intr (link :: ls) =
              procLinks rest (link :: visited) true ls := by
            simp [procLinks, hmem]
          rw [hred]
          obtain ⟨g1, g2, _, _⟩ := hsub rest true
          obtain ⟨_, _, h3, h4, h5⟩ := ih rest (link :: visited) true
          refine ⟨g1, g2, h3, ?_, fun _ => h5 rfl⟩
          · intro x hx
            obtain ⟨ha, hb'⟩ := h4 x hx
            refine ⟨List.mem_cons.mpr (Or.inr ha), ?_⟩
            intro hv
            exact hb' (List.mem_cons.mpr (Or.inr hv))
        · have hb' : b = false := by
            cases b
            · rfl
            · exact absurd rfl hb
          subst hb'
          have hred : procLinks (false :: rest) visited intr (link :: ls) =
              { procLinks rest (link :: visited) intr ls with
                sent := link :: (procLinks rest (link :: visited) intr ls).sent } := by
            simp [procLinks, hmem]
          rw [hred]
          obtain ⟨g1, g2, g3, g4⟩ := hsub rest intr
          obtain ⟨_, _, _, _, h5⟩ := ih rest (link :: visited) intr
          exact ⟨g1, g2, g3, g4, h5⟩

/-- Processing a batch whose links lie in the universe: the unvisited
part of the universe shrinks by at least the number of links enqueued. -/
theorem procLinks_card (univ : List String) (l : List String) (oracle : List Bool)
    (visited : List String) (intr : Bool) (hl : ∀ x ∈ l, x ∈ univ) :
    (univ.toFinset.filter
        (fun u => u ∉ (procLinks oracle visited intr l).visited)).card
      + (procLinks oracle visited intr l).sent.length
      ≤ (univ.toFinset.filter (fun u => u ∉ visited)).card := by
  obtain ⟨h1, _, h3, h4, _⟩ := procLinks_spec l oracle visited intr
  set r := procLinks oracle visited intr l with hr
  have hcard : r.sent.toFinset.card = r.sent.length :=
    List.toFinset_card_of_nodup h3
  have hsubA : univ.toFinset.filter (fun u => u ∉ r.visited) ⊆
      univ.toFinset.filter (fun u => u ∉ visited) := by
    intro a ha
    rw [Finset.mem_filter] at ha ⊢
    refine ⟨ha.1, ?_⟩
    intro hv
    exact ha.2 ((h1 a).mpr (Or.inl hv))
  have hsubS : r.sent.toFinset ⊆ univ.toFinset.filter (fun u => u ∉ visited) := by
    intro a ha
    rw [List.mem_toFinset] at ha
    rw [Finset.mem_filter, List.mem_toFinset]
    exact ⟨hl a (h4 a ha).1, (h4 a ha).2⟩
  have hdisj : Disjoint (univ.toFinset.filter (fun u => u ∉ r.visited))
      r.sent.toFinset := by
    rw [Finset.disjoint_left]
    intro a ha hs
    rw [Finset.mem_filter] at ha
    rw [List.mem_toFinset] at hs
    exact ha.2 ((h1 a).mpr (Or.inr (h4 a hs).1))
  calc (univ.toFinset.filter (fun u => u ∉ r.visited)).card + r.sent.length
      = (univ.toFinset.filter (fun u => u ∉ r.visited) ∪ r.sent.toFinset).card := by
        rw [Finset.card_union_of_disjoint hdisj, hcard]
    _ ≤ (univ.toFinset.filter (fun u => u ∉ visited)).card :=
        Finset.card_le_card (Finset.union_subset hsubA hsubS)

/-- One loop iteration from a state satisfying the invariant with positive
counter: the iteration is enabled (a batch is in flight), preserves the
invariant, strictly decreases the termination measure, consumes one batch
while balancing the counter, and in drain mode (interrupt set on entry)
enqueues nothing and keeps the interrupt flag and visited map unchanged. -/
theorem stepIter_spec (univ : List String) (g : String → List String) (pick : Nat)
    (oracle : List Bool) (s : CtrlState) (hclosed : Closed univ g)
    (hInv : CtrlInv univ s) (hcnt : 0 < s.cnt) :
    ∃ s' oracle', stepIter g pick oracle s = some (s', oracle') ∧
      CtrlInv univ s' ∧ ctrlMeasure univ s' < ctrlMeasure univ s ∧
      IterRel s s' ∧
      (s.interrupt = true →
        s'.sent = s.sent ∧ s'.interrupt = true ∧ s'.visited = s.visited) := by
  obtain ⟨hi1, hi2, hi3, hi4, hi5, hi6, hi7⟩ := hInv
  have hn0 : s.pending.length ≠ 0 := by
    intro h
    rw [h] at hi1
    omega
  have hnpos : 0 < s.pending.length := Nat.pos_of_ne_zero hn0
  have hilt : pick % s.pending.length < s.pending.length := Nat.mod_lt _ hnpos
  have hbatch : s.pending.getD (pick % s.pending.length) [] =
      s.pending[pick % s.pending.length] := List.getD_eq_getElem _ _ hilt
  have hbmem : s.pending.getD (pick % s.pending.length) [] ∈ s.pending := by
    rw [hbatch]
    exact List.getElem_mem hilt
  have hrestlen : (s.pending.eraseIdx (pick % s.pending.length)).length =
      s.pending.length - 1 := by
    rw [List.length_eraseIdx]
    simp [hilt]
  have hrestsub : ∀ b ∈ s.pending.eraseIdx (pick % s.pending.length), b ∈ s.pending :=
    fun b hb => (List.eraseIdx_sublist _ _).subset hb
  by_cases hintr : s.interrupt
  · refine ⟨{ s with
                cnt := s.cnt - 1,
                pending := s.pending.eraseIdx (pick % s.pending.length),
                consumed := s.consumed + 1 }, oracle, ?_, ?_, ?_, ?_, ?_⟩
    · simp only [stepIter, if_neg hn0, hintr, if_true]
    · refine ⟨?_, ?_, hi3, hi4, hi5, hi6, ?_⟩
      · simp only
        rw [hrestlen]
        push_cast
        omega
      · simp only
        push_cast at hi2 ⊢
        omega
      · intro b hb
        exact hi7 b (hrestsub b hb)
    · unfold ctrlMeasure
      simp only
      rw [hrestlen]
      omega
    · refine ⟨rfl, [], by simp, ?_⟩
      simp only [List.length_nil]
      push_cast
      omega
    · exact fun _ => ⟨rfl, hintr, rfl⟩
  · have hintr' : s.interrupt = false := by
      cases h : s.interrupt
      · rfl
      · exact absurd h hintr
    obtain ⟨h1, h2, h3, h4, _⟩ :=
      procLinks_spec (s.pending.getD (pick % s.pending.length) []) oracle s.visited
        s.interrupt
    set l := s.pending.getD (pick % s.pending.length) [] with hl
    set r := procLinks oracle s.visited s.interrupt l with hrdef
    have hlu : ∀ x ∈ l, x ∈ univ := hi7 l hbmem
    refine ⟨{ cnt := s.cnt + r.sent.length - 1, visited := r.visited,
              interrupt := r.interrupt,
              pending := s.pending.eraseIdx (pick % s.pending.length) ++ r.sent.map g,
              sent := s.sent ++ r.sent,
              consumed := s.consumed + 1 }, r.oracle, ?_, ?_, ?_, ?_, ?_⟩
    · simp only [stepIter, if_neg hn0, hintr', if_false, Bool.false_eq_true]
      rw [← hl, ← hintr', ← hrdef]
    · refine ⟨?_, ?_, h2 hi3, ?_, ?_, ?_, ?_⟩
      · simp only
        rw [List.length_append, hrestlen, List.length_map]
        push_cast
        omega
      · simp only
        rw [List.length_append]
        push_cast at hi2 ⊢
        omega
      · exact List.Nodup.append hi4 h3
          (fun a ha hr => (h4 a hr).2 (hi5 a ha))
      · intro x hx
        rcases List.mem_append.mp hx with hx | hx
        · exact (h1 x).mpr (Or.inl (hi5 x hx))
        · exact (h1 x).mpr (Or.inr (h4 x hx).1)
      · intro x hx
        rcases (h1 x).mp hx with hx | hx
        · exact hi6 x hx
        · exact hlu x hx
      · intro b hb
        rcases List.mem_append.mp hb with hb | hb
        · exact hi7 b (hrestsub b hb)
        · obtain ⟨a, ha, rfl⟩ := List.mem_map.mp hb
          exact fun x hx => hclosed a (hlu a (h4 a ha).1) x hx
    · have hc := procLinks_card univ l oracle s.visited s.interrupt hlu
      rw [← hrdef] at hc
      unfold ctrlMeasure
      simp only
      rw [List.length_append, hrestlen, List.length_map]
      omega
    · exact ⟨rfl, r.sent, rfl, by push_cast; omega⟩
    · intro h
      rw [h] at hintr
      exact absurd rfl hintr

/-- The invariant holds when the loop is entered (finder.go:88-93): one
unit of work (the seed task) is in flight and nothing is visited. -/
theorem initState_inv (univ : List String) (g : String → List String)
    (seedURL : String) (hseed : seedURL ∈ univ) (hclosed : Closed univ g) :
    CtrlInv univ (initState g seedURL) := by
  unfold CtrlInv initState
  refine ⟨by simp, by simp, by simp, by simp, by simp, by simp, ?_⟩
  intro b hb x hx
  simp only [List.mem_singleton] at hb
  subst hb
  exact hclosed seedURL hseed x hx

/-- The controller loop, started in any invariant state with enough fuel,
returns a full trace: it never deadlocks, every state of the trace
satisfies the invariant, the final state has counter zero, and adjacent
states are related by one balanced iteration that, in drain mode, enqueues
nothing. -/
theorem runTrace_spec (univ : List String) (g : String → List String)
    (picks : Nat → Nat) (hclosed : Closed univ g) :
    ∀ (fuel : Nat) (oracle : List Bool) (s : CtrlState),
      CtrlInv univ s → ctrlMeasure univ s ≤ fuel →
      ∃ tr : List CtrlState, runTrace g picks fuel oracle s = some tr ∧
        tr.head? = some s ∧
        (∀ t ∈ tr, CtrlInv univ t) ∧
        (∃ last, tr.getLast? = some last ∧ last.cnt = 0) ∧
        List.Chain' (fun a b => IterRel a b ∧
          (a.interrupt = true → b.sent = a.sent ∧ b.interrupt = true)) tr := by
  intro fuel
  induction fuel with
  | zero =>
    intro oracle s hInv hm
    have hp0 : s.pending.length = 0 := by
      unfold ctrlMeasure at hm
      omega
    have hc0 : s.cnt = 0 := by
      have hi1 := hInv.1
      rw [hp0] at hi1
      exact_mod_cast hi1
    have hc : s.cnt ≤ 0 := le_of_eq hc0
    refine ⟨[s], by simp [runTrace, hc], rfl, ?_, ⟨s, rfl, hc0⟩,
      List.chain'_singleton s⟩
    intro t ht
    rw [List.mem_singleton] at ht
    exact ht ▸ hInv
  | succ n ih =>
    intro oracle s hInv hm
    by_cases hc : s.cnt ≤ 0
    · have hc0 : s.cnt = 0 := by
        have hi1 := hInv.1
        omega
      refine ⟨[s], by simp [runTrace, hc], rfl, ?_, ⟨s, rfl, hc0⟩,
        List.chain'_singleton s⟩
      intro t ht
      rw [List.mem_singleton] at ht
      exact ht ▸ hInv
    · have hpos : 0 < s.cnt := by omega
      obtain ⟨s', oracle', heq, hInv', hlt, hrel, hdrain⟩ :=
        stepIter_spec univ g (picks s.consumed) oracle s hclosed hInv hpos
      obtain ⟨tr', htr', hhead', hall', hlast', hchain'⟩ :=
        ih oracle' s' hInv' (by omega)
      obtain ⟨last, hlast, hlast0⟩ := hlast'
      refine ⟨s :: tr', ?_, rfl, ?_, ?_, ?_⟩
      · simp only [runTrace, if_neg hc, heq]
        rw [htr']
        rfl
      · intro t ht
        rcases List.mem_cons.mp ht with h | h
        · exact h ▸ hInv
        · exact hall' t h
      · cases htr'' : tr' with
        | nil =>
          rw [htr''] at hhead'
          simp at hhead'
        | cons x xs =>
          refine ⟨last, ?_, hlast0⟩
          rw [List.getLast?_cons_cons, ← htr'', hlast]
      · rw [List.chain'_cons']
        refine ⟨?_, hchain'⟩
        intro y hy
        rw [hhead', Option.mem_some_iff] at hy
        subst hy
        exact ⟨hrel, fun hi => ⟨(hdrain hi).1, (hdrain hi).2.1⟩⟩

/-- C1: for every finite (possibly cyclic) link graph — a universe of
URLs closed under the links function `g` and containing the seed — and
every batch-arrival order (`picks`) and select oracle, the controller
loop of `run` terminates (no deadlock) in a state whose counter `cnt` is
exactly zero; along the whole run the counter is never negative and is
zero exactly when every scheduled task (the seed plus each loop-enqueued
link) has produced exactly one consumed batch; and each iteration
consumes exactly one batch, decrements the counter once for it, and
increments it once per link it newly enqueues. -/
theorem run_terminates_counter_zero (univ : List String)
    (g : String → List String) (seedURL : String) (picks : Nat → Nat)
    (oracle : List Bool) (hseed : seedURL ∈ univ)
    (hclosed : ∀ u ∈ univ, ∀ x ∈ g u, x ∈ univ) :
    ∃ tr : List CtrlState,
      runTrace g picks (ctrlMeasure univ (initState g seedURL)) oracle
        (initState g seedURL) = some tr ∧
      (∀ t ∈ tr, 0 ≤ t.cnt ∧ (t.cnt = 0 ↔ t.consumed = 1 + t.sent.length)) ∧
      (∃ last, tr.getLast? = some last ∧ last.cnt = 0) ∧
      List.Chain' IterRel tr := by
  obtain ⟨tr, htr, _, hall, hlast, hchain⟩ :=
    runTrace_spec univ g picks hclosed (ctrlMeasure univ (initState g seedURL))
      oracle (initState g seedURL) (initState_inv univ g seedURL hseed hclosed)
      (le_refl _)
  refine ⟨tr, htr, ?_, hlast, hchain.imp (fun _ _ h => h.1)⟩
  intro t ht
  obtain ⟨t1, t2, _⟩ := hall t ht
  exact ⟨by omega, by omega⟩

def gEx : String → List String := fun u => if u = "s" then ["a", "s"] else []

theorem run_terminates_counter_zero_witness :
    ∃ tr : List CtrlState,
      runTrace gEx (fun _ => 0) (ctrlMeasure ["s", "a"] (initState gEx "s")) []
        (initState gEx "s") = some tr ∧
      (∀ t ∈ tr, 0 ≤ t.cnt ∧ (t.cnt = 0 ↔ t.consumed = 1 + t.sent.length)) ∧
      (∃ last, tr.getLast? = some last ∧ last.cnt = 0) ∧
      List.Chain' IterRel tr :=
  run_terminates_counter_zero ["s", "a"] gEx "s" (fun _ => 0) [] (by decide)
    (by decide)

/-- In a duplicate-free list each value occurs at most once. -/
theorem length_filter_eq_le_one (l : List String) (u : String) (hl : l.Nodup) :
    (l.filter (fun x => decide (x = u))).length ≤ 1 := by
  induction l with
  | nil => simp
  | cons a t ih =>
    rw [List.nodup_cons] at hl
    by_cases h : a = u
    · subst h
      have hnil : t.filter (fun x => decide (x = a)) = [] := by
        rw [List.filter_eq_nil_iff]
        intro x hx
        simp only [decide_eq_true_eq]
        intro he
        exact hl.1 (he ▸ hx)
      rw [List.filter_cons, if_pos (by simp), hnil]
      simp
    · rw [List.filter_cons, if_neg (by simp [h])]
      exact ih hl.2

def gSelfLoop : String → List String := fun u => if u = "s" then ["s"] else []

/-- C2 counterexample: the priming send of the seed task (finder.go:88)
happens while the `visited` map is still empty (finder.go:73), so when the
seed page links back to the seed — link graph `gSelfLoop`, seed "s" — the
loop finds "s" unvisited and enqueues it again: in this run the loop's
enqueue log is `["s"]`, so together with the priming send the URL "s" is
sent into the tasks channel twice, refuting "each distinct URL is sent
into the tasks channel as a CrawlTask at most once". -/
theorem seed_enqueued_twice :
    (((runTrace gSelfLoop (fun _ => 0) 4 []
        (initState gSelfLoop "s")).getD []).getLastD default).sent = ["s"] ∧
    ¬("s" :: (((runTrace gSelfLoop (fun _ => 0) 4 []
        (initState gSelfLoop "s")).getD []).getLastD default).sent).Nodup := by
  decide

/-- C2 amended: for every link graph, arrival order and select oracle, at
every point of the run each distinct URL is in the visited map at most
once, every loop-enqueued URL was inserted into the visited map before its
enqueue attempt (it is in the map), and each distinct URL is enqueued by
the loop at most once; counting the priming send of the seed
(finder.go:88), which does not mark the seed visited, every URL other
than the seed enters the tasks channel at most once, while the seed
itself may enter it up to twice. -/
theorem run_dedup (univ : List String) (g : String → List String)
    (seedURL : String) (picks : Nat → Nat) (oracle : List Bool)
    (hseed : seedURL ∈ univ) (hclosed : ∀ u ∈ univ, ∀ x ∈ g u, x ∈ univ) :
    ∃ tr : List CtrlState,
      runTrace g picks (ctrlMeasure univ (initState g seedURL)) oracle
        (initState g seedURL) = some tr ∧
      ∀ t ∈ tr, t.visited.Nodup ∧ t.sent.Nodup ∧
        (∀ x ∈ t.sent, x ∈ t.visited) ∧
        (∀ u : String, u ≠ seedURL →
          ((seedURL :: t.sent).filter (fun x => decide (x = u))).length ≤ 1) ∧
        ((seedURL :: t.sent).filter (fun x => decide (x = seedURL))).length ≤ 2 := by
  obtain ⟨tr, htr, _, hall, _, _⟩ :=
    runTrace_spec univ g picks hclosed (ctrlMeasure univ (initState g seedURL))
      oracle (initState g seedURL) (initState_inv univ g seedURL hseed hclosed)
      (le_refl _)
  refine ⟨tr, htr, ?_⟩
  intro t ht
  obtain ⟨_, _, hvn, hsn, hsv, _, _⟩ := hall t ht
  refine ⟨hvn, hsn, hsv, ?_, ?_⟩
  · intro u hu
    rw [List.filter_cons, if_neg (by simp [Ne.symm hu])]
    exact length_filter_eq_le_one t.sent u hsn
  · rw [List.filter_cons, if_pos (by simp)]
    have := length_filter_eq_le_one t.sent seedURL hsn
    simp only [List.length_cons]
    omega

theorem run_dedup_witness :
    ∃ tr : List CtrlState,
      runTrace gSelfLoop (fun _ => 0)
        (ctrlMeasure ["s"] (initState gSelfLoop "s")) []
        (initState gSelfLoop "s") = some tr ∧
      ∀ t ∈ tr, t.visited.Nodup ∧ t.sent.Nodup ∧
        (∀ x ∈ t.sent, x ∈ t.visited) ∧
        (∀ u : String, u ≠ "s" →
          (("s" :: t.sent).filter (fun x => decide (x = u))).length ≤ 1) ∧
        (("s" :: t.sent).filter (fun x => decide (x = "s"))).length ≤ 2 :=
  run_dedup ["s"] gSelfLoop "s" (fun _ => 0) [] (by decide) (by decide)

/-- C3 counterexample: a single batch `["a", "b"]` processed with no
interrupt pending and oracle `[true, false]`: the enqueue attempt for "a"
observes `ctx.Done()` (so cancellation had already fired), decrements the
counter and sets the interrupt flag — yet the very next link "b" of the
same batch is still enqueued (`sent = ["b"]`), because the inner loop
(finder.go:104-119) re-races each remaining link independently and Go's
`select` picks randomly among ready cases.  This refutes "once ctx.Done
has fired, the controller never enqueues a new CrawlTask". -/
theorem task_enqueued_after_cancellation_observed :
    procLinks [true, false] [] false ["a", "b"] =
      { visited := ["b", "a"], interrupt := true, oracle := [], sent := ["b"] } := by
  decide

/-- C3 amended: the interrupt flag is only consulted once per batch
(finder.go:100), so drain-only mode starts with the batch after the one
in which cancellation was observed: whenever a state of the run has the
interrupt flag set, the next iteration enqueues nothing and keeps the
flag set; remaining batches are still consumed and the loop terminates
with counter zero (tasks already queued are processed).  Links remaining
in the batch in which cancellation is first observed may still be
enqueued, since each enqueue independently races the channel send against
`ctx.Done()`. -/
theorem run_drains_after_interrupt (univ : List String)
    (g : String → List String) (seedURL : String) (picks : Nat → Nat)
    (oracle : List Bool) (hseed : seedURL ∈ univ)
    (hclosed : ∀ u ∈ univ, ∀ x ∈ g u, x ∈ univ) :
    ∃ tr : List CtrlState,
      runTrace g picks (ctrlMeasure univ (initState g seedURL)) oracle
        (initState g seedURL) = some tr ∧
      List.Chain' (fun a b => a.interrupt = true →
        b.sent = a.sent ∧ b.interrupt = true) tr ∧
      (∃ last, tr.getLast? = some last ∧ last.cnt = 0) := by
  obtain ⟨tr, htr, _, _, hlast, hchain⟩ :=
    runTrace_spec univ g picks hclosed (ctrlMeasure univ (initState g seedURL))
      oracle (initState g seedURL) (initState_inv univ g seedURL hseed hclosed)
      (le_refl _)
  exact ⟨tr, htr, hchain.imp (fun _ _ h => h.2), hlast⟩

theorem run_drains_after_interrupt_witness :
    ∃ tr : List CtrlState,
      runTrace gEx (fun _ => 0) (ctrlMeasure ["s", "a"] (initState gEx "s"))
        [true] (initState gEx "s") = some tr ∧
      List.Chain' (fun a b => a.interrupt = true →
        b.sent = a.sent ∧ b.interrupt = true) tr ∧
      (∃ last, tr.getLast? = some last ∧ last.cnt = 0) :=
  run_drains_after_interrupt ["s", "a"] gEx "s" (fun _ => 0) [true] (by decide)
    (by decide)
